import Mathlib

/-!
Shallow embedding of `src/src/cxx_string_view.rs` (the `CxxStringView<'a>`
binding to a C++ `std::string_view`) together with the standard-library
routines it delegates to (`str::from_utf8`, `String::from_utf8_lossy`,
byte-slice comparison), and a spec-side definition of UTF-8 validity built
from the Unicode scalar-value encoder, used to judge the validation claims.

Machine model: a raw pointer is an address (`Nat`, with `0` the null
pointer) and byte memory is a total function from addresses to byte
values.  A Rust `&[u8]` is an address/length pair whose address is never
null.  A `str` is represented by its byte content, a `List Nat`.
-/

/-- A raw pointer address; `0` models the null pointer. -/
abbrev Addr : Type := Nat

/-- Byte memory: the byte stored at each address. -/
abbrev Mem : Type := Addr → Nat

/-- The address `core::ptr::NonNull::<u8>::dangling()` produces: the
alignment of `u8`, i.e. `1`; well defined and never null. -/
def danglingAddr : Addr := 1

/-- The bytes at `[a, a + n)` in memory `mem`. -/
def readBytes (mem : Mem) (a : Addr) (n : Nat) : List Nat :=
  (List.range n).map fun i => mem (a + i)

/-- Model of a Rust byte slice `&[u8]`: data pointer and length.  A Rust
slice reference is never built from a null pointer (even an empty slice
uses a dangling non-null pointer), which callers record as `addr ≠ 0`. -/
structure RustSlice where
  addr : Addr
  len : Nat
deriving DecidableEq, Repr

/-- The byte content of a slice. -/
def RustSlice.bytes (mem : Mem) (s : RustSlice) : List Nat :=
  readBytes mem s.addr s.len

/-- Model of `CxxStringView<'a>` from `src/src/cxx_string_view.rs`: its
two-word `_storage`, once `string_view_init` has run, holds the data
pointer and the byte length of the referenced range (the C++
`std::string_view` layout the static asserts in cxx.cc pin down). -/
structure CxxStringView where
  data : Addr
  size : Nat
deriving DecidableEq, Repr

/-- Model of the extern call `cxxbridge1$cxx_string_view$init`: writes view
storage referencing `len` bytes starting at `data`. -/
def string_view_init (data : Addr) (len : Nat) : CxxStringView :=
  { data := data, size := len }

/-- Model of the extern call `cxxbridge1$cxx_string_view$data`. -/
def string_view_data (v : CxxStringView) : Addr := v.data

/-- Model of the extern call `cxxbridge1$cxx_string_view$length`. -/
def string_view_length (v : CxxStringView) : Nat := v.size

/-- `CxxStringView::from_raw_parts`: initializes the storage via the
foreign `string_view_init` call. -/
def CxxStringView.from_raw_parts (data : Addr) (len : Nat) : CxxStringView :=
  string_view_init data len

/-- `CxxStringView::new`: takes the slice's pointer and length and calls
`from_raw_parts`; no byte is copied, only the pointer is stored. -/
def CxxStringView.new (s : RustSlice) : CxxStringView :=
  CxxStringView.from_raw_parts s.addr s.len

/-- `CxxStringView::empty`: `Self::new(&[])`.  The empty slice `&[]` has
length `0` and a dangling (non-null) pointer. -/
def CxxStringView.empty : CxxStringView :=
  CxxStringView.new { addr := danglingAddr, len := 0 }

/-- `CxxStringView::len`: delegates to the foreign length call. -/
def CxxStringView.len (v : CxxStringView) : Nat :=
  string_view_length v

/-- `CxxStringView::is_empty`: `self.len() == 0`. -/
def CxxStringView.is_empty (v : CxxStringView) : Bool :=
  v.len == 0

/-- `CxxStringView::as_ptr`: delegates to the foreign data call. -/
def CxxStringView.as_ptr (v : CxxStringView) : Addr :=
  string_view_data v

/-- The pointer `CxxStringView::as_bytes` hands to
`slice::from_raw_parts`: the view's data pointer if it is not null,
otherwise `NonNull::dangling()`. -/
def CxxStringView.slice_data (v : CxxStringView) : Addr :=
  if v.as_ptr ≠ 0 then v.as_ptr else danglingAddr

/-- `CxxStringView::as_bytes`: the slice of `len` bytes starting at the
null-normalized data pointer. -/
def CxxStringView.as_bytes (mem : Mem) (v : CxxStringView) : List Nat :=
  readBytes mem v.slice_data v.len

/-- The construction invariant of the view (spec section 3): the data
pointer may be the null sentinel only when the length is zero.  `new`
establishes it (slice pointers are non-null) and the C++ side's
`string_view` operations preserve it. -/
def CxxStringView.WF (v : CxxStringView) : Prop :=
  v.data = 0 → v.size = 0

/-- `core::str::Utf8Error`: the length of the longest valid prefix and,
when the offending sequence is not a truncated suffix, its byte length. -/
structure Utf8Error where
  valid_up_to : Nat
  error_len : Option Nat
deriving DecidableEq, Repr

/-- Shifts an error produced on a suffix back to the whole input: the
suffix starts `n` bytes in, so `valid_up_to` grows by `n`. -/
def shiftErr (n : Nat) : Option Utf8Error → Option Utf8Error
  | none => none
  | some e => some { valid_up_to := n + e.valid_up_to, error_len := e.error_len }

/-- `core::str::validations::utf8_char_width`: the byte length an encoded
character would have given its first byte; `0` for a byte no character
starts with. -/
def utf8CharWidth (b : Nat) : Nat :=
  if b ≤ 0x7F then 1
  else if b < 0xC2 then 0
  else if b ≤ 0xDF then 2
  else if b ≤ 0xEF then 3
  else if b ≤ 0xF4 then 4
  else 0

/-- `core::str::validations::run_utf8_validation`, the validator behind
`str::from_utf8`, translated with the error offset tracked relative to the
current suffix (`shiftErr` restores the absolute `old_offset` the Rust
loop reports).  Rust's `next!() as i8 >= -64` test (`b < 0x80 ∨ 0xC0 ≤ b`)
recognizes a byte that is not a continuation byte; the `match (first,
next!())` arms for widths 3 and 4 appear verbatim as the disjunctions.
The ASCII block fast path is dropped: it only skips over ASCII bytes the
`first < 0x80` branch accepts one at a time. -/
def runUtf8Validation : List Nat → Option Utf8Error
  | [] => none
  | first :: rest =>
    if first < 0x80 then
      shiftErr 1 (runUtf8Validation rest)
    else if utf8CharWidth first = 2 then
      match rest with
      | [] => some { valid_up_to := 0, error_len := none }
      | c1 :: r1 =>
        if c1 < 0x80 ∨ 0xC0 ≤ c1 then some { valid_up_to := 0, error_len := some 1 }
        else shiftErr 2 (runUtf8Validation r1)
    else if utf8CharWidth first = 3 then
      match rest with
      | [] => some { valid_up_to := 0, error_len := none }
      | c1 :: r1 =>
        if (first = 0xE0 ∧ 0xA0 ≤ c1 ∧ c1 ≤ 0xBF) ∨
            (0xE1 ≤ first ∧ first ≤ 0xEC ∧ 0x80 ≤ c1 ∧ c1 ≤ 0xBF) ∨
            (first = 0xED ∧ 0x80 ≤ c1 ∧ c1 ≤ 0x9F) ∨
            (0xEE ≤ first ∧ first ≤ 0xEF ∧ 0x80 ≤ c1 ∧ c1 ≤ 0xBF) then
          match r1 with
          | [] => some { valid_up_to := 0, error_len := none }
          | c2 :: r2 =>
            if c2 < 0x80 ∨ 0xC0 ≤ c2 then some { valid_up_to := 0, error_len := some 2 }
            else shiftErr 3 (runUtf8Validation r2)
        else some { valid_up_to := 0, error_len := some 1 }
    else if utf8CharWidth first = 4 then
      match rest with
      | [] => some { valid_up_to := 0, error_len := none }
      | c1 :: r1 =>
        if (first = 0xF0 ∧ 0x90 ≤ c1 ∧ c1 ≤ 0xBF) ∨
            (0xF1 ≤ first ∧ first ≤ 0xF3 ∧ 0x80 ≤ c1 ∧ c1 ≤ 0xBF) ∨
            (first = 0xF4 ∧ 0x80 ≤ c1 ∧ c1 ≤ 0x8F) then
          match r1 with
          | [] => some { valid_up_to := 0, error_len := none }
          | c2 :: r2 =>
            if c2 < 0x80 ∨ 0xC0 ≤ c2 then some { valid_up_to := 0, error_len := some 2 }
            else
              match r2 with
              | [] => some { valid_up_to := 0, error_len := none }
              | c3 :: r3 =>
                if c3 < 0x80 ∨ 0xC0 ≤ c3 then some { valid_up_to := 0, error_len := some 3 }
                else shiftErr 4 (runUtf8Validation r3)
        else some { valid_up_to := 0, error_len := some 1 }
    else some { valid_up_to := 0, error_len := some 1 }

/-- `str::from_utf8`: the same bytes viewed as a `str` when the validator
accepts, the validator's error otherwise. -/
def fromUtf8 (b : List Nat) : Except Utf8Error (List Nat) :=
  match runUtf8Validation b with
  | none => Except.ok b
  | some e => Except.error e

/-- `CxxStringView::to_str`: `str::from_utf8(self.as_bytes())`. -/
def CxxStringView.to_str (mem : Mem) (v : CxxStringView) : Except Utf8Error (List Nat) :=
  fromUtf8 (v.as_bytes mem)

/-- A Unicode scalar value: a code point that is not a surrogate. -/
def IsScalar (c : Nat) : Prop :=
  c < 0xD800 ∨ (0xE000 ≤ c ∧ c < 0x110000)

instance (c : Nat) : Decidable (IsScalar c) := by
  unfold IsScalar; infer_instance

/-- The UTF-8 encoding of a code point, written from the Unicode
definition (spec side): 1 to 4 bytes chosen by the code point's range. -/
def utf8EncodeChar (c : Nat) : List Nat :=
  if c < 0x80 then [c]
  else if c < 0x800 then
    [0xC0 + c / 0x40, 0x80 + c % 0x40]
  else if c < 0x10000 then
    [0xE0 + c / 0x1000, 0x80 + c / 0x40 % 0x40, 0x80 + c % 0x40]
  else
    [0xF0 + c / 0x40000, 0x80 + c / 0x1000 % 0x40, 0x80 + c / 0x40 % 0x40, 0x80 + c % 0x40]

/-- Spec-side UTF-8 validity: the byte list is the concatenation of the
encodings of a sequence of Unicode scalar values. -/
inductive ValidUtf8 : List Nat → Prop where
  | nil : ValidUtf8 []
  | cons (c : Nat) (rest : List Nat) :
      IsScalar c → ValidUtf8 rest → ValidUtf8 (utf8EncodeChar c ++ rest)

/-- Some scalar value's encoding is a prefix of `w`: decoding can make one
more step at this position.  Its negation at a position after a valid
prefix says the position holds the first invalid byte. -/
def CharStartsAt (w : List Nat) : Prop :=
  ∃ c t, IsScalar c ∧ w = utf8EncodeChar c ++ t

theorem utf8CharWidth_eq_two {b : Nat} (h : 0xC2 ≤ b ∧ b ≤ 0xDF) :
    utf8CharWidth b = 2 := by
  unfold utf8CharWidth; split_ifs <;> omega

theorem utf8CharWidth_eq_three {b : Nat} (h : 0xE0 ≤ b ∧ b ≤ 0xEF) :
    utf8CharWidth b = 3 := by
  unfold utf8CharWidth; split_ifs <;> omega

theorem utf8CharWidth_eq_four {b : Nat} (h : 0xF0 ≤ b ∧ b ≤ 0xF4) :
    utf8CharWidth b = 4 := by
  unfold utf8CharWidth; split_ifs <;> omega

theorem utf8CharWidth_two_range {b : Nat} (h : utf8CharWidth b = 2) :
    0xC2 ≤ b ∧ b ≤ 0xDF := by
  unfold utf8CharWidth at h; split_ifs at h <;> omega

theorem utf8CharWidth_three_range {b : Nat} (h : utf8CharWidth b = 3) :
    0xE0 ≤ b ∧ b ≤ 0xEF := by
  unfold utf8CharWidth at h; split_ifs at h <;> omega

theorem utf8CharWidth_four_range {b : Nat} (h : utf8CharWidth b = 4) :
    0xF0 ≤ b ∧ b ≤ 0xF4 := by
  unfold utf8CharWidth at h; split_ifs at h <;> omega

/-- The encoding of a scalar value below `0x80` is the single byte itself. -/
theorem utf8EncodeChar_one {c : Nat} (h : c < 0x80) :
    utf8EncodeChar c = [c] := by
  unfold utf8EncodeChar; rw [if_pos h]

/-- The two-byte encoding, spelled out. -/
theorem utf8EncodeChar_two {c : Nat} (h1 : 0x80 ≤ c) (h2 : c < 0x800) :
    utf8EncodeChar c = [0xC0 + c / 0x40, 0x80 + c % 0x40] := by
  unfold utf8EncodeChar
  rw [if_neg (by omega), if_pos h2]

/-- The three-byte encoding, spelled out. -/
theorem utf8EncodeChar_three {c : Nat} (h1 : 0x800 ≤ c) (h2 : c < 0x10000) :
    utf8EncodeChar c = [0xE0 + c / 0x1000, 0x80 + c / 0x40 % 0x40, 0x80 + c % 0x40] := by
  unfold utf8EncodeChar
  rw [if_neg (by omega), if_neg (by omega), if_pos h2]

/-- The four-byte encoding, spelled out. -/
theorem utf8EncodeChar_four {c : Nat} (h1 : 0x10000 ≤ c) :
    utf8EncodeChar c =
      [0xF0 + c / 0x40000, 0x80 + c / 0x1000 % 0x40, 0x80 + c / 0x40 % 0x40, 0x80 + c % 0x40] := by
  unfold utf8EncodeChar
  rw [if_neg (by omega), if_neg (by omega), if_neg (by omega)]

/-- One validator step over an ASCII byte. -/
theorem run_ascii {b : Nat} (hb : b < 0x80) (w : List Nat) :
    runUtf8Validation (b :: w) = shiftErr 1 (runUtf8Validation w) := by
  conv_lhs => unfold runUtf8Validation
  rw [if_pos hb]

/-- One validator step over a well-formed two-byte sequence. -/
theorem run_two {b0 b1 : Nat} (h0 : 0xC2 ≤ b0 ∧ b0 ≤ 0xDF) (h1 : 0x80 ≤ b1 ∧ b1 ≤ 0xBF)
    (w : List Nat) :
    runUtf8Validation (b0 :: b1 :: w) = shiftErr 2 (runUtf8Validation w) := by
  conv_lhs => unfold runUtf8Validation
  rw [if_neg (by omega : ¬ b0 < 0x80), if_pos (utf8CharWidth_eq_two h0)]
  try simp only []
  rw [if_neg (by omega : ¬ (b1 < 0x80 ∨ 0xC0 ≤ b1))]

/-- One validator step over a well-formed three-byte sequence: the lead
and second byte satisfy one of the four width-3 match arms and the third
byte is a continuation byte. -/
theorem run_three {b0 b1 b2 : Nat}
    (h0 : (b0 = 0xE0 ∧ 0xA0 ≤ b1 ∧ b1 ≤ 0xBF) ∨
      (0xE1 ≤ b0 ∧ b0 ≤ 0xEC ∧ 0x80 ≤ b1 ∧ b1 ≤ 0xBF) ∨
      (b0 = 0xED ∧ 0x80 ≤ b1 ∧ b1 ≤ 0x9F) ∨
      (0xEE ≤ b0 ∧ b0 ≤ 0xEF ∧ 0x80 ≤ b1 ∧ b1 ≤ 0xBF))
    (h2 : 0x80 ≤ b2 ∧ b2 ≤ 0xBF) (w : List Nat) :
    runUtf8Validation (b0 :: b1 :: b2 :: w) = shiftErr 3 (runUtf8Validation w) := by
  have hw : utf8CharWidth b0 = 3 := utf8CharWidth_eq_three (by omega)
  conv_lhs => unfold runUtf8Validation
  rw [hw]
  rw [if_neg (by omega : ¬ b0 < 0x80), if_neg (by norm_num : ¬ (3 : Nat) = 2),
    if_pos (rfl : (3 : Nat) = 3)]
  try simp only []
  rw [if_pos h0]
  try simp only []
  rw [if_neg (by omega : ¬ (b2 < 0x80 ∨ 0xC0 ≤ b2))]

/-- One validator step over a well-formed four-byte sequence. -/
theorem run_four {b0 b1 b2 b3 : Nat}
    (h0 : (b0 = 0xF0 ∧ 0x90 ≤ b1 ∧ b1 ≤ 0xBF) ∨
      (0xF1 ≤ b0 ∧ b0 ≤ 0xF3 ∧ 0x80 ≤ b1 ∧ b1 ≤ 0xBF) ∨
      (b0 = 0xF4 ∧ 0x80 ≤ b1 ∧ b1 ≤ 0x8F))
    (h2 : 0x80 ≤ b2 ∧ b2 ≤ 0xBF) (h3 : 0x80 ≤ b3 ∧ b3 ≤ 0xBF) (w : List Nat) :
    runUtf8Validation (b0 :: b1 :: b2 :: b3 :: w) = shiftErr 4 (runUtf8Validation w) := by
  have hw : utf8CharWidth b0 = 4 := utf8CharWidth_eq_four (by omega)
  conv_lhs => unfold runUtf8Validation
  rw [hw]
  rw [if_neg (by omega : ¬ b0 < 0x80), if_neg (by norm_num : ¬ (4 : Nat) = 2),
    if_neg (by norm_num : ¬ (4 : Nat) = 3), if_pos (rfl : (4 : Nat) = 4)]
  try simp only []
  rw [if_pos h0]
  try simp only []
  rw [if_neg (by omega : ¬ (b2 < 0x80 ∨ 0xC0 ≤ b2))]
  try simp only []
  rw [if_neg (by omega : ¬ (b3 < 0x80 ∨ 0xC0 ≤ b3))]

/-- Running the validator over one encoded scalar value followed by `w`
consumes exactly the encoding and continues on `w`, the error offset
shifted by the encoding's length. -/
theorem run_prepend_char {c : Nat} (hc : IsScalar c) (w : List Nat) :
    runUtf8Validation (utf8EncodeChar c ++ w) =
      shiftErr (utf8EncodeChar c).length (runUtf8Validation w) := by
  rcases Nat.lt_or_ge c 0x80 with h1 | h1
  · rw [utf8EncodeChar_one h1]
    exact run_ascii h1 w
  rcases Nat.lt_or_ge c 0x800 with h2 | h2
  · rw [utf8EncodeChar_two h1 h2]
    exact run_two (by omega) (by omega) w
  rcases Nat.lt_or_ge c 0x10000 with h3 | h3
  · rw [utf8EncodeChar_three h2 h3]
    refine run_three ?_ (by omega) w
    rcases hc with hs | hs
    · omega
    · omega
  · rw [utf8EncodeChar_four h3]
    have hc' : c < 0x110000 := by rcases hc with hs | hs <;> omega
    refine run_four ?_ (by omega) (by omega) w
    omega

theorem shiftErr_eq_none {n : Nat} {o : Option Utf8Error} :
    shiftErr n o = none ↔ o = none := by
  cases o <;> simp [shiftErr]

theorem shiftErr_eq_some {n : Nat} {o : Option Utf8Error} {e : Utf8Error} :
    shiftErr n o = some e ↔
      ∃ e', o = some e' ∧ e = { valid_up_to := n + e'.valid_up_to, error_len := e'.error_len } := by
  cases o <;> simp [shiftErr, eq_comm]

/-- Completeness: the validator accepts every spec-valid byte list. -/
theorem run_eq_none_of_valid {b : List Nat} (h : ValidUtf8 b) :
    runUtf8Validation b = none := by
  induction h with
  | nil => rfl
  | cons c rest hc _ ih =>
      rw [run_prepend_char hc, ih]
      rfl

/-- A lead/continuation pair accepted by the width-2 arm is the encoding
of a scalar value. -/
theorem two_byte_char {b0 b1 : Nat} (h0 : 0xC2 ≤ b0 ∧ b0 ≤ 0xDF)
    (h1 : 0x80 ≤ b1 ∧ b1 ≤ 0xBF) :
    ∃ c, IsScalar c ∧ utf8EncodeChar c = [b0, b1] := by
  refine ⟨(b0 - 0xC0) * 0x40 + (b1 - 0x80), Or.inl (by omega), ?_⟩
  rw [utf8EncodeChar_two (by omega) (by omega)]
  simp only [List.cons.injEq, and_true]
  omega

/-- A byte triple accepted by the width-3 match arms is the encoding of a
scalar value (the `0xED` arm stays below the surrogate range). -/
theorem three_byte_char {b0 b1 b2 : Nat}
    (h0 : (b0 = 0xE0 ∧ 0xA0 ≤ b1 ∧ b1 ≤ 0xBF) ∨
      (0xE1 ≤ b0 ∧ b0 ≤ 0xEC ∧ 0x80 ≤ b1 ∧ b1 ≤ 0xBF) ∨
      (b0 = 0xED ∧ 0x80 ≤ b1 ∧ b1 ≤ 0x9F) ∨
      (0xEE ≤ b0 ∧ b0 ≤ 0xEF ∧ 0x80 ≤ b1 ∧ b1 ≤ 0xBF))
    (h2 : 0x80 ≤ b2 ∧ b2 ≤ 0xBF) :
    ∃ c, IsScalar c ∧ utf8EncodeChar c = [b0, b1, b2] := by
  refine ⟨(b0 - 0xE0) * 0x1000 + (b1 - 0x80) * 0x40 + (b2 - 0x80), ?_, ?_⟩
  · unfold IsScalar
    omega
  · rw [utf8EncodeChar_three (by omega) (by omega)]
    simp only [List.cons.injEq, and_true]
    omega

/-- A byte quadruple accepted by the width-4 match arms is the encoding of
a scalar value (the `0xF0`/`0xF4` arms keep it within plane bounds). -/
theorem four_byte_char {b0 b1 b2 b3 : Nat}
    (h0 : (b0 = 0xF0 ∧ 0x90 ≤ b1 ∧ b1 ≤ 0xBF) ∨
      (0xF1 ≤ b0 ∧ b0 ≤ 0xF3 ∧ 0x80 ≤ b1 ∧ b1 ≤ 0xBF) ∨
      (b0 = 0xF4 ∧ 0x80 ≤ b1 ∧ b1 ≤ 0x8F))
    (h2 : 0x80 ≤ b2 ∧ b2 ≤ 0xBF) (h3 : 0x80 ≤ b3 ∧ b3 ≤ 0xBF) :
    ∃ c, IsScalar c ∧ utf8EncodeChar c = [b0, b1, b2, b3] := by
  refine ⟨(b0 - 0xF0) * 0x40000 + (b1 - 0x80) * 0x1000 + (b2 - 0x80) * 0x40 + (b3 - 0x80), ?_, ?_⟩
  · unfold IsScalar
    omega
  · rw [utf8EncodeChar_four (by omega)]
    simp only [List.cons.injEq, and_true]
    omega

/-- Soundness: a byte list the validator accepts is spec-valid, i.e. it is
a concatenation of scalar-value encodings. -/
theorem valid_of_run_eq_none : ∀ b : List Nat, runUtf8Validation b = none → ValidUtf8 b := by
  intro b
  induction b using runUtf8Validation.induct with
  | case1 =>
      intro _
      exact ValidUtf8.nil
  | case2 c1 r1 hlt ih =>
      intro h
      rw [run_ascii hlt, shiftErr_eq_none] at h
      have hv := ValidUtf8.cons c1 r1 (Or.inl (by omega)) (ih h)
      rw [utf8EncodeChar_one hlt] at hv
      simpa using hv
  | case3 c1 h1 hw =>
      intro h
      rw [runUtf8Validation.eq_def] at h
      simp [h1, hw] at h
  | case4 c1 h1 hw c1_1 r1 hnc =>
      intro h
      rw [runUtf8Validation.eq_def] at h
      simp [h1, hw, hnc] at h
  | case5 c1 h1 hw c1_1 r1 hc ih =>
      intro h
      rw [run_two (utf8CharWidth_two_range hw) (by omega : 0x80 ≤ c1_1 ∧ c1_1 ≤ 0xBF) r1,
        shiftErr_eq_none] at h
      obtain ⟨c, hsc, henc⟩ :=
        two_byte_char (utf8CharWidth_two_range hw) (by omega : 0x80 ≤ c1_1 ∧ c1_1 ≤ 0xBF)
      have hv := ValidUtf8.cons c r1 hsc (ih h)
      rw [henc] at hv
      simpa using hv
  | case6 c1 h1 hnw2 hw =>
      intro h
      rw [runUtf8Validation.eq_def] at h
      simp [h1, hnw2, hw] at h
  | case7 c1 h1 hnw2 hw c1_1 hp =>
      intro h
      rw [runUtf8Validation.eq_def] at h
      simp [h1, hnw2, hw, hp] at h
  | case8 c1 h1 hnw2 hw c1_1 hp c1_2 r1 hnc =>
      intro h
      rw [runUtf8Validation.eq_def] at h
      simp [h1, hnw2, hw, hp, hnc] at h
  | case9 c1 h1 hnw2 hw c1_1 hp c1_2 r1 hc ih =>
      intro h
      rw [run_three hp (by omega : 0x80 ≤ c1_2 ∧ c1_2 ≤ 0xBF) r1, shiftErr_eq_none] at h
      obtain ⟨c, hsc, henc⟩ := three_byte_char hp (by omega : 0x80 ≤ c1_2 ∧ c1_2 ≤ 0xBF)
      have hv := ValidUtf8.cons c r1 hsc (ih h)
      rw [henc] at hv
      simpa using hv
  | case10 c1 h1 hnw2 hw c1_1 r1 hnp =>
      intro h
      rw [runUtf8Validation.eq_def] at h
      simp [h1, hnw2, hw, hnp] at h
  | case11 c1 h1 hnw2 hnw3 hw =>
      intro h
      rw [runUtf8Validation.eq_def] at h
      simp [h1, hnw2, hnw3, hw] at h
  | case12 c1 h1 hnw2 hnw3 hw c1_1 hp =>
      intro h
      rw [runUtf8Validation.eq_def] at h
      simp [h1, hnw2, hnw3, hw, hp] at h
  | case13 c1 h1 hnw2 hnw3 hw c1_1 hp c1_2 r1 hnc =>
      intro h
      rw [runUtf8Validation.eq_def] at h
      simp [h1, hnw2, hnw3, hw, hp, hnc] at h
  | case14 c1 h1 hnw2 hnw3 hw c1_1 hp c1_2 hc =>
      intro h
      rw [runUtf8Validation.eq_def] at h
      simp [h1, hnw2, hnw3, hw, hp, hc] at h
  | case15 c1 h1 hnw2 hnw3 hw c1_1 hp c1_2 hc c1_3 r1 hnc =>
      intro h
      rw [runUtf8Validation.eq_def] at h
      simp [h1, hnw2, hnw3, hw, hp, hc, hnc] at h
  | case16 c1 h1 hnw2 hnw3 hw c1_1 hp c1_2 hc c1_3 r1 hc3 ih =>
      intro h
      rw [run_four hp (by omega : 0x80 ≤ c1_2 ∧ c1_2 ≤ 0xBF)
        (by omega : 0x80 ≤ c1_3 ∧ c1_3 ≤ 0xBF) r1, shiftErr_eq_none] at h
      obtain ⟨c, hsc, henc⟩ := four_byte_char hp (by omega : 0x80 ≤ c1_2 ∧ c1_2 ≤ 0xBF)
        (by omega : 0x80 ≤ c1_3 ∧ c1_3 ≤ 0xBF)
      have hv := ValidUtf8.cons c r1 hsc (ih h)
      rw [henc] at hv
      simpa using hv
  | case17 c1 h1 hnw2 hnw3 hw c1_1 r1 hnp =>
      intro h
      rw [runUtf8Validation.eq_def] at h
      simp [h1, hnw2, hnw3, hw, hnp] at h
  | case18 c1 r1 h1 hnw2 hnw3 hnw4 =>
      intro h
      rw [runUtf8Validation.eq_def] at h
      simp [h1, hnw2, hnw3, hnw4] at h

theorem shiftErr_eq_some_mk {n v : Nat} {el : Option Nat} {o : Option Utf8Error} :
    shiftErr n o = some { valid_up_to := v, error_len := el } ↔
      ∃ v', o = some { valid_up_to := v', error_len := el } ∧ v = n + v' := by
  cases o with
  | none => simp [shiftErr]
  | some e =>
      cases e with
      | mk v0 el0 =>
          simp only [shiftErr, Option.some.injEq, Utf8Error.mk.injEq]
          constructor
          · rintro ⟨h1, h2⟩
            exact ⟨v0, by simp [h2], h1.symm⟩
          · rintro ⟨v', ⟨h1, h2⟩, h3⟩
            subst h1
            simp [h2, h3]

/-- Every branch of the error-reporting validator: on error, the part of
the input before `valid_up_to` is spec-valid, the error re-occurs at
offset `0` on the rest, and a reported `error_len` lies in `1..3`. -/
theorem run_some_spec : ∀ b : List Nat, ∀ v : Nat, ∀ el : Option Nat,
    runUtf8Validation b = some { valid_up_to := v, error_len := el } →
    ValidUtf8 (b.take v) ∧
      runUtf8Validation (b.drop v) = some { valid_up_to := 0, error_len := el } ∧
      (∀ l, el = some l → 1 ≤ l ∧ l ≤ 3) := by
  intro b
  induction b using runUtf8Validation.induct with
  | case1 =>
      intro v el h
      simp [runUtf8Validation] at h
  | case2 c1 r1 hlt ih =>
      intro v el h
      rw [run_ascii hlt, shiftErr_eq_some_mk] at h
      obtain ⟨v', hrun', rfl⟩ := h
      obtain ⟨hv, hdrop, hlen⟩ := ih v' el hrun'
      refine ⟨?_, ?_, hlen⟩
      · rw [show 1 + v' = v' + 1 from by omega, List.take_succ_cons]
        have hc := ValidUtf8.cons c1 _ (Or.inl (by omega)) hv
        rw [utf8EncodeChar_one hlt] at hc
        simpa using hc
      · rw [show 1 + v' = v' + 1 from by omega, List.drop_succ_cons]
        exact hdrop
  | case3 c1 h1 hw =>
      intro v el h
      have hrun : runUtf8Validation [c1] = some { valid_up_to := 0, error_len := none } := by
        rw [runUtf8Validation.eq_def]
        simp [h1, hw]
      rw [hrun] at h
      simp only [Option.some.injEq, Utf8Error.mk.injEq] at h
      obtain ⟨rfl, rfl⟩ := h
      exact ⟨ValidUtf8.nil, by simpa using hrun, by simp⟩
  | case4 c1 h1 hw c1_1 r1 hnc =>
      intro v el h
      have hrun : runUtf8Validation (c1 :: c1_1 :: r1) =
          some { valid_up_to := 0, error_len := some 1 } := by
        rw [runUtf8Validation.eq_def]
        simp [h1, hw, hnc]
      rw [hrun] at h
      simp only [Option.some.injEq, Utf8Error.mk.injEq] at h
      obtain ⟨rfl, rfl⟩ := h
      refine ⟨ValidUtf8.nil, by simpa using hrun, ?_⟩
      intro l hl
      injection hl with hl
      omega
  | case5 c1 h1 hw c1_1 r1 hc ih =>
      intro v el h
      rw [run_two (utf8CharWidth_two_range hw) (by omega : 0x80 ≤ c1_1 ∧ c1_1 ≤ 0xBF) r1,
        shiftErr_eq_some_mk] at h
      obtain ⟨v', hrun', rfl⟩ := h
      obtain ⟨hv, hdrop, hlen⟩ := ih v' el hrun'
      obtain ⟨c, hsc, henc⟩ :=
        two_byte_char (utf8CharWidth_two_range hw) (by omega : 0x80 ≤ c1_1 ∧ c1_1 ≤ 0xBF)
      refine ⟨?_, ?_, hlen⟩
      · rw [show 2 + v' = v' + 1 + 1 from by omega, List.take_succ_cons, List.take_succ_cons]
        have hcv := ValidUtf8.cons c _ hsc hv
        rw [henc] at hcv
        simpa using hcv
      · rw [show 2 + v' = v' + 1 + 1 from by omega, List.drop_succ_cons, List.drop_succ_cons]
        exact hdrop
  | case6 c1 h1 hnw2 hw =>
      intro v el h
      have hrun : runUtf8Validation [c1] = some { valid_up_to := 0, error_len := none } := by
        rw [runUtf8Validation.eq_def]
        simp [h1, hnw2, hw]
      rw [hrun] at h
      simp only [Option.some.injEq, Utf8Error.mk.injEq] at h
      obtain ⟨rfl, rfl⟩ := h
      exact ⟨ValidUtf8.nil, by simpa using hrun, by simp⟩
  | case7 c1 h1 hnw2 hw c1_1 hp =>
      intro v el h
      have hrun : runUtf8Validation [c1, c1_1] = some { valid_up_to := 0, error_len := none } := by
        rw [runUtf8Validation.eq_def]
        simp [h1, hnw2, hw, hp]
      rw [hrun] at h
      simp only [Option.some.injEq, Utf8Error.mk.injEq] at h
      obtain ⟨rfl, rfl⟩ := h
      exact ⟨ValidUtf8.nil, by simpa using hrun, by simp⟩
  | case8 c1 h1 hnw2 hw c1_1 hp c1_2 r1 hnc =>
      intro v el h
      have hrun : runUtf8Validation (c1 :: c1_1 :: c1_2 :: r1) =
          some { valid_up_to := 0, error_len := some 2 } := by
        rw [runUtf8Validation.eq_def]
        simp [h1, hnw2, hw, hp, hnc]
      rw [hrun] at h
      simp only [Option.some.injEq, Utf8Error.mk.injEq] at h
      obtain ⟨rfl, rfl⟩ := h
      refine ⟨ValidUtf8.nil, by simpa using hrun, ?_⟩
      intro l hl
      injection hl with hl
      omega
  | case9 c1 h1 hnw2 hw c1_1 hp c1_2 r1 hc ih =>
      intro v el h
      rw [run_three hp (by omega : 0x80 ≤ c1_2 ∧ c1_2 ≤ 0xBF) r1, shiftErr_eq_some_mk] at h
      obtain ⟨v', hrun', rfl⟩ := h
      obtain ⟨hv, hdrop, hlen⟩ := ih v' el hrun'
      obtain ⟨c, hsc, henc⟩ := three_byte_char hp (by omega : 0x80 ≤ c1_2 ∧ c1_2 ≤ 0xBF)
      refine ⟨?_, ?_, hlen⟩
      · rw [show 3 + v' = v' + 1 + 1 + 1 from by omega, List.take_succ_cons,
          List.take_succ_cons, List.take_succ_cons]
        have hcv := ValidUtf8.cons c _ hsc hv
        rw [henc] at hcv
        simpa using hcv
      · rw [show 3 + v' = v' + 1 + 1 + 1 from by omega, List.drop_succ_cons,
          List.drop_succ_cons, List.drop_succ_cons]
        exact hdrop
  | case10 c1 h1 hnw2 hw c1_1 r1 hnp =>
      intro v el h
      have hrun : runUtf8Validation (c1 :: c1_1 :: r1) =
          some { valid_up_to := 0, error_len := some 1 } := by
        rw [runUtf8Validation.eq_def]
        simp [h1, hnw2, hw, hnp]
      rw [hrun] at h
      simp only [Option.some.injEq, Utf8Error.mk.injEq] at h
      obtain ⟨rfl, rfl⟩ := h
      refine ⟨ValidUtf8.nil, by simpa using hrun, ?_⟩
      intro l hl
      injection hl with hl
      omega
  | case11 c1 h1 hnw2 hnw3 hw =>
      intro v el h
      have hrun : runUtf8Validation [c1] = some { valid_up_to := 0, error_len := none } := by
        rw [runUtf8Validation.eq_def]
        simp [h1, hnw2, hnw3, hw]
      rw [hrun] at h
      simp only [Option.some.injEq, Utf8Error.mk.injEq] at h
      obtain ⟨rfl, rfl⟩ := h
      exact ⟨ValidUtf8.nil, by simpa using hrun, by simp⟩
  | case12 c1 h1 hnw2 hnw3 hw c1_1 hp =>
      intro v el h
      have hrun : runUtf8Validation [c1, c1_1] = some { valid_up_to := 0, error_len := none } := by
        rw [runUtf8Validation.eq_def]
        simp [h1, hnw2, hnw3, hw, hp]
      rw [hrun] at h
      simp only [Option.some.injEq, Utf8Error.mk.injEq] at h
      obtain ⟨rfl, rfl⟩ := h
      exact ⟨ValidUtf8.nil, by simpa using hrun, by simp⟩
  | case13 c1 h1 hnw2 hnw3 hw c1_1 hp c1_2 r1 hnc =>
      intro v el h
      have hrun : runUtf8Validation (c1 :: c1_1 :: c1_2 :: r1) =
          some { valid_up_to := 0, error_len := some 2 } := by
        rw [runUtf8Validation.eq_def]
        simp [h1, hnw2, hnw3, hw, hp, hnc]
      rw [hrun] at h
      simp only [Option.some.injEq, Utf8Error.mk.injEq] at h
      obtain ⟨rfl, rfl⟩ := h
      refine ⟨ValidUtf8.nil, by simpa using hrun, ?_⟩
      intro l hl
      injection hl with hl
      omega
  | case14 c1 h1 hnw2 hnw3 hw c1_1 hp c1_2 hc =>
      intro v el h
      have hrun : runUtf8Validation [c1, c1_1, c1_2] =
          some { valid_up_to := 0, error_len := none } := by
        rw [runUtf8Validation.eq_def]
        simp [h1, hnw2, hnw3, hw, hp, hc]
      rw [hrun] at h
      simp only [Option.some.injEq, Utf8Error.mk.injEq] at h
      obtain ⟨rfl, rfl⟩ := h
      exact ⟨ValidUtf8.nil, by simpa using hrun, by simp⟩
  | case15 c1 h1 hnw2 hnw3 hw c1_1 hp c1_2 hc c1_3 r1 hnc =>
      intro v el h
      have hrun : runUtf8Validation (c1 :: c1_1 :: c1_2 :: c1_3 :: r1) =
          some { valid_up_to := 0, error_len := some 3 } := by
        rw [runUtf8Validation.eq_def]
        simp [h1, hnw2, hnw3, hw, hp, hc, hnc]
      rw [hrun] at h
      simp only [Option.some.injEq, Utf8Error.mk.injEq] at h
      obtain ⟨rfl, rfl⟩ := h
      refine ⟨ValidUtf8.nil, by simpa using hrun, ?_⟩
      intro l hl
      injection hl with hl
      omega
  | case16 c1 h1 hnw2 hnw3 hw c1_1 hp c1_2 hc c1_3 r1 hc3 ih =>
      intro v el h
      rw [run_four hp (by omega : 0x80 ≤ c1_2 ∧ c1_2 ≤ 0xBF)
        (by omega : 0x80 ≤ c1_3 ∧ c1_3 ≤ 0xBF) r1, shiftErr_eq_some_mk] at h
      obtain ⟨v', hrun', rfl⟩ := h
      obtain ⟨hv, hdrop, hlen⟩ := ih v' el hrun'
      obtain ⟨c, hsc, henc⟩ := four_byte_char hp (by omega : 0x80 ≤ c1_2 ∧ c1_2 ≤ 0xBF)
        (by omega : 0x80 ≤ c1_3 ∧ c1_3 ≤ 0xBF)
      refine ⟨?_, ?_, hlen⟩
      · rw [show 4 + v' = v' + 1 + 1 + 1 + 1 from by omega, List.take_succ_cons,
          List.take_succ_cons, List.take_succ_cons, List.take_succ_cons]
        have hcv := ValidUtf8.cons c _ hsc hv
        rw [henc] at hcv
        simpa using hcv
      · rw [show 4 + v' = v' + 1 + 1 + 1 + 1 from by omega, List.drop_succ_cons,
          List.drop_succ_cons, List.drop_succ_cons, List.drop_succ_cons]
        exact hdrop
  | case17 c1 h1 hnw2 hnw3 hw c1_1 r1 hnp =>
      intro v el h
      have hrun : runUtf8Validation (c1 :: c1_1 :: r1) =
          some { valid_up_to := 0, error_len := some 1 } := by
        rw [runUtf8Validation.eq_def]
        simp [h1, hnw2, hnw3, hw, hnp]
      rw [hrun] at h
      simp only [Option.some.injEq, Utf8Error.mk.injEq] at h
      obtain ⟨rfl, rfl⟩ := h
      refine ⟨ValidUtf8.nil, by simpa using hrun, ?_⟩
      intro l hl
      injection hl with hl
      omega
  | case18 c1 r1 h1 hnw2 hnw3 hnw4 =>
      intro v el h
      have hrun : runUtf8Validation (c1 :: r1) =
          some { valid_up_to := 0, error_len := some 1 } := by
        rw [runUtf8Validation.eq_def]
        simp [h1, hnw2, hnw3, hnw4]
      rw [hrun] at h
      simp only [Option.some.injEq, Utf8Error.mk.injEq] at h
      obtain ⟨rfl, rfl⟩ := h
      refine ⟨ValidUtf8.nil, by simpa using hrun, ?_⟩
      intro l hl
      injection hl with hl
      omega

theorem utf8EncodeChar_length_pos (c : Nat) : 0 < (utf8EncodeChar c).length := by
  unfold utf8EncodeChar
  split_ifs <;> simp

/-- If the validator reports an error at offset `0`, no scalar value's
encoding is a prefix of the input: the very first byte is invalid. -/
theorem not_charStartsAt_of_err {b : List Nat} {el : Option Nat}
    (h : runUtf8Validation b = some { valid_up_to := 0, error_len := el }) :
    ¬ CharStartsAt b := by
  rintro ⟨c, t, hc, rfl⟩
  rw [run_prepend_char hc, shiftErr_eq_some_mk] at h
  obtain ⟨v', _, hv'⟩ := h
  have := utf8EncodeChar_length_pos c
  omega

theorem run_nil : runUtf8Validation [] = none := rfl

/-- An error's offset lies strictly inside the input. -/
theorem run_some_lt_length {b : List Nat} {v : Nat} {el : Option Nat}
    (h : runUtf8Validation b = some { valid_up_to := v, error_len := el }) :
    v < b.length := by
  obtain ⟨-, hdrop, -⟩ := run_some_spec b v el h
  by_contra hge
  rw [List.drop_eq_nil_of_le (by omega), run_nil] at hdrop
  exact Option.noConfusion hdrop

/-- `ValidUtf8` is closed under concatenation. -/
theorem ValidUtf8.append {a b : List Nat} (ha : ValidUtf8 a) (hb : ValidUtf8 b) :
    ValidUtf8 (a ++ b) := by
  induction ha with
  | nil => simpa using hb
  | cons c rest hc _ ih =>
      rw [List.append_assoc]
      exact ValidUtf8.cons c _ hc ih

/-- The UTF-8 bytes of U+FFFD REPLACEMENT CHARACTER. -/
def replacementBytes : List Nat := [0xEF, 0xBF, 0xBD]

/-- The byte content `String::from_utf8_lossy` assembles: the valid chunk
before each error, one U+FFFD per invalid sequence (`error_len` bytes are
skipped; a truncated suffix, `error_len = none`, ends the input after one
U+FFFD), repeated until the rest validates. -/
def lossyBytes (b : List Nat) : List Nat :=
  match h : runUtf8Validation b with
  | none => b
  | some e =>
      b.take e.valid_up_to ++ replacementBytes ++
        (match hl : e.error_len with
          | some l => lossyBytes (b.drop (e.valid_up_to + l))
          | none => [])
termination_by b.length
decreasing_by
  have hlt := run_some_lt_length h
  have hlen := (run_some_spec b e.valid_up_to e.error_len h).2.2
  simp only [List.length_drop]
  have := hlen l hl
  omega

/-- `alloc::borrow::Cow<str>`, specialized to our byte-content model of
`str` and `String`. -/
inductive Cow where
  | Borrowed (b : List Nat)
  | Owned (b : List Nat)
deriving DecidableEq, Repr

/-- The text content of either `Cow` variant. -/
def Cow.bytes : Cow → List Nat
  | Borrowed b => b
  | Owned b => b

/-- `String::from_utf8_lossy`: borrows the input unchanged when it is
valid UTF-8, otherwise allocates the replacement-substituted content. -/
def from_utf8_lossy (b : List Nat) : Cow :=
  match runUtf8Validation b with
  | none => Cow.Borrowed b
  | some _ => Cow.Owned (lossyBytes b)

/-- `CxxStringView::to_string_lossy`:
`String::from_utf8_lossy(self.as_bytes())`. -/
def CxxStringView.to_string_lossy (mem : Mem) (v : CxxStringView) : Cow :=
  from_utf8_lossy (v.as_bytes mem)

theorem replacement_valid : ValidUtf8 replacementBytes := by
  have h := ValidUtf8.cons 0xFFFD [] (by decide) ValidUtf8.nil
  rw [(by decide : utf8EncodeChar 0xFFFD = replacementBytes)] at h
  simpa using h

theorem lossyBytes_of_valid {b : List Nat} (h : ValidUtf8 b) : lossyBytes b = b := by
  have hr := run_eq_none_of_valid h
  unfold lossyBytes
  split
  · rfl
  · rename_i e he
    rw [hr] at he
    exact Option.noConfusion he

theorem lossyBytes_err_some {b : List Nat} {e : Utf8Error} {l : Nat}
    (h : runUtf8Validation b = some e) (hl : e.error_len = some l) :
    lossyBytes b =
      b.take e.valid_up_to ++ replacementBytes ++ lossyBytes (b.drop (e.valid_up_to + l)) := by
  conv_lhs => unfold lossyBytes
  split
  · rename_i hn
    rw [h] at hn
    exact Option.noConfusion hn
  · rename_i e' he'
    rw [h] at he'
    injection he' with he'
    subst he'
    split
    · rename_i l' hl'
      rw [hl] at hl'
      injection hl' with hl'
      subst hl'
      simp [List.append_assoc]
    · rename_i hl'
      rw [hl] at hl'
      exact Option.noConfusion hl'

theorem lossyBytes_err_none {b : List Nat} {e : Utf8Error}
    (h : runUtf8Validation b = some e) (hl : e.error_len = none) :
    lossyBytes b = b.take e.valid_up_to ++ replacementBytes := by
  conv_lhs => unfold lossyBytes
  split
  · rename_i hn
    rw [h] at hn
    exact Option.noConfusion hn
  · rename_i e' he'
    rw [h] at he'
    injection he' with he'
    subst he'
    split
    · rename_i l' hl'
      rw [hl] at hl'
      exact Option.noConfusion hl'
    · simp

/-- What the lossy conversion produces is always valid UTF-8. -/
theorem lossyBytes_valid : ∀ b : List Nat, ValidUtf8 (lossyBytes b) := by
  intro b
  induction b using lossyBytes.induct with
  | case1 x hx =>
      rw [lossyBytes_of_valid (valid_of_run_eq_none x hx)]
      exact valid_of_run_eq_none x hx
  | case2 x e he ih =>
      have htake : ValidUtf8 (x.take e.valid_up_to) :=
        (run_some_spec x e.valid_up_to e.error_len he).1
      cases hl : e.error_len with
      | none =>
          rw [lossyBytes_err_none he hl]
          exact ValidUtf8.append htake replacement_valid
      | some l =>
          rw [lossyBytes_err_some he hl]
          exact ValidUtf8.append (ValidUtf8.append htake replacement_valid) (ih l hl)

/-- `impl PartialEq for CxxStringView`: `self.as_bytes() == other.as_bytes()`. -/
def CxxStringView.eq (mem : Mem) (u v : CxxStringView) : Bool :=
  u.as_bytes mem == v.as_bytes mem

/-- `impl PartialEq<str> for CxxStringView`: the Rust `str` is modelled by
its byte content. -/
def CxxStringView.eq_str (mem : Mem) (v : CxxStringView) (s : List Nat) : Bool :=
  v.as_bytes mem == s

/-- `impl PartialEq<CxxStringView> for str`. -/
def str_eq_view (mem : Mem) (s : List Nat) (v : CxxStringView) : Bool :=
  s == v.as_bytes mem

/-- Modelled from the spec: `CxxString`, the owned foreign (C++) string of
this repository; its definition lives outside `src/`, so only its byte
content and its `as_bytes` accessor are modelled, which is all the
`PartialEq` impls under `src/` use. -/
structure CxxString where
  content : List Nat

/-- Modelled from the spec: `CxxString::as_bytes`, the owned string's byte
content. -/
def CxxString.as_bytes (s : CxxString) : List Nat := s.content

/-- `impl PartialEq<CxxString> for CxxStringView`. -/
def CxxStringView.eq_cxx_string (mem : Mem) (v : CxxStringView) (s : CxxString) : Bool :=
  v.as_bytes mem == s.as_bytes

/-- `impl PartialEq<CxxStringView> for CxxString`. -/
def cxx_string_eq_view (mem : Mem) (s : CxxString) (v : CxxStringView) : Bool :=
  s.as_bytes == v.as_bytes mem

/-- `u8::cmp`: integer comparison. -/
def byteCmp (a b : Nat) : Ordering :=
  if a < b then .lt else if b < a then .gt else .eq

/-- `Ord::cmp` on `[u8]`: elementwise comparison, ties broken by length
(Rust's lexicographic slice order). -/
def sliceCmp : List Nat → List Nat → Ordering
  | [], [] => .eq
  | [], _ :: _ => .lt
  | _ :: _, [] => .gt
  | a :: l, b :: m =>
    match byteCmp a b with
    | Ordering.eq => sliceCmp l m
    | o => o

/-- `u8::partial_cmp`: total, always `Some`. -/
def bytePartialCmp (a b : Nat) : Option Ordering := some (byteCmp a b)

/-- `PartialOrd::partial_cmp` on `[u8]`: elementwise partial comparison,
ties broken by length. -/
def slicePartialCmp : List Nat → List Nat → Option Ordering
  | [], [] => some Ordering.eq
  | [], _ :: _ => some Ordering.lt
  | _ :: _, [] => some Ordering.gt
  | a :: l, b :: m =>
    match bytePartialCmp a b with
    | some Ordering.eq => slicePartialCmp l m
    | o => o

/-- `impl Ord for CxxStringView`: `self.as_bytes().cmp(other.as_bytes())`. -/
def CxxStringView.cmp (mem : Mem) (u v : CxxStringView) : Ordering :=
  sliceCmp (u.as_bytes mem) (v.as_bytes mem)

/-- `impl PartialOrd for CxxStringView`:
`self.as_bytes().partial_cmp(other.as_bytes())`. -/
def CxxStringView.partial_cmp (mem : Mem) (u v : CxxStringView) : Option Ordering :=
  slicePartialCmp (u.as_bytes mem) (v.as_bytes mem)

/-- `impl Hash for CxxStringView`: feeds `self.as_bytes()` to the hasher.
A hasher is modelled as any state transition consuming a byte slice. -/
def CxxStringView.hash {α : Type} (mem : Mem) (hasher : List Nat → α → α)
    (st : α) (v : CxxStringView) : α :=
  hasher (v.as_bytes mem) st

/-- The `Hash` impl of `[u8]`, in the same hasher model: feeds the slice
to the hasher. -/
def sliceHash {α : Type} (hasher : List Nat → α → α) (st : α) (b : List Nat) : α :=
  hasher b st

/-- `impl Display for CxxStringView`: the text written to the formatter,
`Display::fmt(self.to_string_lossy().as_ref(), f)`. -/
def CxxStringView.display_fmt (mem : Mem) (v : CxxStringView) : List Nat :=
  (v.to_string_lossy mem).bytes

/-- `impl Debug for CxxStringView`: delegates to `str`'s `Debug` on
`self.to_string_lossy().as_ref()`; the external `str` renderer (quoting
and escaping) is a parameter. -/
def CxxStringView.debug_fmt (mem : Mem) (strDebug : List Nat → List Nat)
    (v : CxxStringView) : List Nat :=
  strDebug ((v.to_string_lossy mem).bytes)

/-- `impl AsRef<[u8]> for CxxStringView`: `self.as_bytes()`. -/
def CxxStringView.as_ref (mem : Mem) (v : CxxStringView) : List Nat :=
  v.as_bytes mem

/-- `impl Borrow<[u8]> for CxxStringView`: `self.as_bytes()`. -/
def CxxStringView.borrow (mem : Mem) (v : CxxStringView) : List Nat :=
  v.as_bytes mem

/-- A memory holding the bytes of `l` starting at address `base` (zeros
elsewhere), for concrete scenarios. -/
def memOfList (l : List Nat) (base : Addr) : Mem :=
  fun a => l.getD (a - base) 0

/-- The 17 ASCII bytes of the test string "A string from C++" from
`src/tests/cxx_string_view.rs`. -/
def aStringFromCpp : List Nat :=
  [65, 32, 115, 116, 114, 105, 110, 103, 32, 102, 114, 111, 109, 32, 67, 43, 43]

theorem slicePartialCmp_eq_some_cmp :
    ∀ l m : List Nat, slicePartialCmp l m = some (sliceCmp l m) := by
  intro l
  induction l with
  | nil =>
      intro m
      cases m <;> rfl
  | cons a l ih =>
      intro m
      cases m with
      | nil => rfl
      | cons b m =>
          simp only [slicePartialCmp, sliceCmp, bytePartialCmp]
          cases h : byteCmp a b <;> simp [ih]

theorem sliceCmp_eq_iff : ∀ l m : List Nat, sliceCmp l m = Ordering.eq ↔ l = m := by
  intro l
  induction l with
  | nil =>
      intro m
      cases m <;> simp [sliceCmp]
  | cons a l ih =>
      intro m
      cases m with
      | nil => simp [sliceCmp]
      | cons b m =>
          simp only [sliceCmp]
          rcases hc : byteCmp a b with _ | _ | _
          · simp only [byteCmp] at hc
            split_ifs at hc <;> simp_all
            omega
          · unfold byteCmp at hc
            split_ifs at hc with h1 h2
            simp only [List.cons.injEq]
            rw [ih]
            simp [show a = b from by omega]
          · simp only [byteCmp] at hc
            split_ifs at hc <;> simp_all
            omega

theorem sliceCmp_lt_iff :
    ∀ l m : List Nat, sliceCmp l m = Ordering.lt ↔ List.Lex (· < ·) l m := by
  intro l
  induction l with
  | nil =>
      intro m
      cases m with
      | nil => simp [sliceCmp]
      | cons b m => simp [sliceCmp, List.Lex.nil]
  | cons a l ih =>
      intro m
      cases m with
      | nil => simp [sliceCmp]
      | cons b m =>
          simp only [sliceCmp]
          rcases hc : byteCmp a b with _ | _ | _
          · simp only [byteCmp] at hc
            split_ifs at hc with h1 h2 <;> try simp_all
            exact List.Lex.rel h1
          · unfold byteCmp at hc
            split_ifs at hc with h1 h2
            have hab : a = b := by omega
            subst hab
            simp only [hc]
            rw [ih]
            constructor
            · exact List.Lex.cons
            · intro hl
              cases hl with
              | cons h => exact h
              | rel h => omega
          · simp only [byteCmp] at hc
            split_ifs at hc with h1 h2 <;> try simp_all
            intro hl
            cases hl with
            | cons h => omega
            | rel h => omega

theorem sliceCmp_gt_iff :
    ∀ l m : List Nat, sliceCmp l m = Ordering.gt ↔ List.Lex (· < ·) m l := by
  intro l
  induction l with
  | nil =>
      intro m
      cases m with
      | nil => simp [sliceCmp]
      | cons b m => simp [sliceCmp]
  | cons a l ih =>
      intro m
      cases m with
      | nil => simp [sliceCmp, List.Lex.nil]
      | cons b m =>
          simp only [sliceCmp]
          rcases hc : byteCmp a b with _ | _ | _
          · simp only [byteCmp] at hc
            split_ifs at hc with h1 <;> try simp_all
            intro hl
            cases hl with
            | cons h => omega
            | rel h => omega
          · unfold byteCmp at hc
            split_ifs at hc with h1 h2
            have hab : a = b := by omega
            subst hab
            simp only [hc]
            rw [ih]
            constructor
            · exact List.Lex.cons
            · intro hl
              cases hl with
              | cons h => exact h
              | rel h => omega
          · simp only [byteCmp] at hc
            split_ifs at hc with h1 h2 <;> try simp_all
            exact List.Lex.rel h2

/-- `str::from_utf8` succeeds exactly on spec-valid UTF-8, and returns the
input bytes themselves as the text. -/
theorem fromUtf8_ok_iff (b t : List Nat) :
    fromUtf8 b = Except.ok t ↔ (t = b ∧ ValidUtf8 b) := by
  unfold fromUtf8
  cases h : runUtf8Validation b with
  | none =>
      simp only [Except.ok.injEq]
      constructor
      · intro ht
        exact ⟨ht.symm, valid_of_run_eq_none b h⟩
      · intro ⟨ht, _⟩
        exact ht.symm
  | some e =>
      simp only [reduceCtorEq, false_iff, not_and]
      intro _ hv
      rw [run_eq_none_of_valid hv] at h
      exact Option.noConfusion h

/-- `str::from_utf8` fails exactly on spec-invalid input, and the error's
`valid_up_to` points at the first invalid byte: everything before it
decodes, and no scalar-value encoding starts at it. -/
theorem fromUtf8_err (b : List Nat) (e : Utf8Error) (h : fromUtf8 b = Except.error e) :
    ¬ ValidUtf8 b ∧
      ValidUtf8 (b.take e.valid_up_to) ∧
      ¬ CharStartsAt (b.drop e.valid_up_to) ∧
      e.valid_up_to < b.length := by
  unfold fromUtf8 at h
  cases hr : runUtf8Validation b with
  | none => rw [hr] at h; exact Except.noConfusion h
  | some e' =>
      rw [hr] at h
      injection h with h
      subst h
      obtain ⟨htake, hdrop, -⟩ := run_some_spec b e'.valid_up_to e'.error_len hr
      refine ⟨?_, htake, not_charStartsAt_of_err hdrop, run_some_lt_length hr⟩
      intro hv
      rw [run_eq_none_of_valid hv] at hr
      exact Option.noConfusion hr

/-- The text content of the lossy conversion is `lossyBytes`. -/
theorem from_utf8_lossy_bytes (b : List Nat) : (from_utf8_lossy b).bytes = lossyBytes b := by
  unfold from_utf8_lossy
  cases h : runUtf8Validation b with
  | none =>
      rw [lossyBytes_of_valid (valid_of_run_eq_none b h)]
      rfl
  | some e => rfl

theorem lossyBytes_FFFE : lossyBytes [0xFF, 0xFE] = replacementBytes ++ replacementBytes := by
  have h1 : runUtf8Validation [0xFF, 0xFE] =
      some { valid_up_to := 0, error_len := some 1 } := by decide
  have h2 : runUtf8Validation [0xFE] =
      some { valid_up_to := 0, error_len := some 1 } := by decide
  rw [lossyBytes_err_some h1 rfl]
  have hd1 : List.drop (0 + 1) [0xFF, 0xFE] = [0xFE] := rfl
  rw [hd1, lossyBytes_err_some h2 rfl]
  have hd2 : List.drop (0 + 1) [0xFE] = ([] : List Nat) := rfl
  rw [hd2, lossyBytes_of_valid ValidUtf8.nil]
  rfl

theorem lossyBytes_F09F : lossyBytes [0xF0, 0x9F] = replacementBytes := by
  have h1 : runUtf8Validation [0xF0, 0x9F] =
      some { valid_up_to := 0, error_len := none } := by decide
  rw [lossyBytes_err_none h1 rfl]
  rfl

/-- C1: for every byte slice, `CxxStringView::new` followed by `as_bytes`
returns exactly the slice's bytes (same content, same length), and the
view aliases the slice's memory (it stores the slice's pointer, copying no
byte). -/
theorem c1_new_as_bytes_roundtrip (mem : Mem) (s : RustSlice) (h : s.addr ≠ 0) :
    CxxStringView.as_bytes mem (CxxStringView.new s) = RustSlice.bytes mem s ∧
    (CxxStringView.new s).data = s.addr ∧
    (CxxStringView.as_bytes mem (CxxStringView.new s)).length = s.len := by
  have hsd : (CxxStringView.new s).slice_data = s.addr := by
    unfold CxxStringView.slice_data
    split_ifs with hnz
    · rfl
    · exact absurd (not_not.mp hnz) h
  have hb : CxxStringView.as_bytes mem (CxxStringView.new s) = RustSlice.bytes mem s := by
    unfold CxxStringView.as_bytes
    rw [hsd]
    rfl
  refine ⟨hb, rfl, ?_⟩
  rw [hb]
  unfold RustSlice.bytes readBytes
  simp

/-- Witness for C1 at a concrete slice: two bytes `[7, 8]` at address 1. -/
theorem c1_new_as_bytes_roundtrip_witness :
    CxxStringView.as_bytes (memOfList [7, 8] 1) (CxxStringView.new ⟨1, 2⟩) =
        RustSlice.bytes (memOfList [7, 8] 1) ⟨1, 2⟩ ∧
      (CxxStringView.new ⟨1, 2⟩).data = 1 ∧
      (CxxStringView.as_bytes (memOfList [7, 8] 1) (CxxStringView.new ⟨1, 2⟩)).length = 2 :=
  c1_new_as_bytes_roundtrip (memOfList [7, 8] 1) ⟨1, 2⟩ (by decide)

/-- C2: `to_str` returns `Ok` with exactly the view's bytes as text iff
those bytes are valid UTF-8 (spec-side encoder definition); on `Err`, the
error's `valid_up_to` is the index of the first invalid byte: the part
before it is valid and no scalar-value encoding starts at it. -/
theorem c2_to_str_utf8_correct (mem : Mem) (v : CxxStringView) :
    (∀ t, v.to_str mem = Except.ok t ↔ (t = v.as_bytes mem ∧ ValidUtf8 (v.as_bytes mem))) ∧
    (∀ e, v.to_str mem = Except.error e →
      ¬ ValidUtf8 (v.as_bytes mem) ∧
        ValidUtf8 ((v.as_bytes mem).take e.valid_up_to) ∧
        ¬ CharStartsAt ((v.as_bytes mem).drop e.valid_up_to) ∧
        e.valid_up_to < (v.as_bytes mem).length) := by
  constructor
  · intro t
    exact fromUtf8_ok_iff (v.as_bytes mem) t
  · intro e he
    exact fromUtf8_err (v.as_bytes mem) e he

/-- C3: `to_string_lossy` is a total function; on valid UTF-8 it borrows
the exact bytes, its output is always valid UTF-8, and on the invalid
inputs `[0xFF, 0xFE]` and `[0xF0, 0x9F]` it owns two replacement
characters resp. one (maximal-subpart replacement: the truncated four-byte
lead `F0 9F` becomes a single U+FFFD, not one per byte). -/
theorem c3_to_string_lossy_correct (mem : Mem) (v : CxxStringView) :
    (ValidUtf8 (v.as_bytes mem) → v.to_string_lossy mem = Cow.Borrowed (v.as_bytes mem)) ∧
    ValidUtf8 (v.to_string_lossy mem).bytes ∧
    CxxStringView.to_string_lossy (memOfList [0xFF, 0xFE] 1) (CxxStringView.new ⟨1, 2⟩) =
      Cow.Owned (replacementBytes ++ replacementBytes) ∧
    CxxStringView.to_string_lossy (memOfList [0xF0, 0x9F] 1) (CxxStringView.new ⟨1, 2⟩) =
      Cow.Owned replacementBytes := by
  refine ⟨?_, ?_, ?_, ?_⟩
  · intro hv
    unfold CxxStringView.to_string_lossy from_utf8_lossy
    rw [run_eq_none_of_valid hv]
  · show ValidUtf8 (from_utf8_lossy (v.as_bytes mem)).bytes
    rw [from_utf8_lossy_bytes]
    exact lossyBytes_valid _
  · have hb : CxxStringView.as_bytes (memOfList [0xFF, 0xFE] 1) (CxxStringView.new ⟨1, 2⟩) =
        [0xFF, 0xFE] := by decide
    unfold CxxStringView.to_string_lossy from_utf8_lossy
    rw [hb,
      (by decide : runUtf8Validation [0xFF, 0xFE] =
        some { valid_up_to := 0, error_len := some 1 })]
    rw [lossyBytes_FFFE]
  · have hb : CxxStringView.as_bytes (memOfList [0xF0, 0x9F] 1) (CxxStringView.new ⟨1, 2⟩) =
        [0xF0, 0x9F] := by decide
    unfold CxxStringView.to_string_lossy from_utf8_lossy
    rw [hb,
      (by decide : runUtf8Validation [0xF0, 0x9F] =
        some { valid_up_to := 0, error_len := none })]
    rw [lossyBytes_F09F]

/-- C4: `as_bytes` never builds a slice from a null pointer: the pointer
it passes to `slice::from_raw_parts` is non-null (null is replaced by the
dangling placeholder), and under the construction invariant a null data
pointer implies length zero and an empty slice. -/
theorem c4_as_bytes_null_safety (mem : Mem) (v : CxxStringView) (hwf : v.WF) :
    v.slice_data ≠ 0 ∧ (v.data = 0 → v.len = 0 ∧ v.as_bytes mem = []) := by
  constructor
  · unfold CxxStringView.slice_data
    split_ifs with h
    · exact h
    · decide
  · intro h0
    have hz : v.len = 0 := hwf h0
    refine ⟨hz, ?_⟩
    unfold CxxStringView.as_bytes
    rw [hz]
    rfl

/-- Witness for C4 at the null view of length zero. -/
theorem c4_as_bytes_null_safety_witness :
    (CxxStringView.mk 0 0).slice_data ≠ 0 ∧
      ((CxxStringView.mk 0 0).data = 0 →
        (CxxStringView.mk 0 0).len = 0 ∧
          (CxxStringView.mk 0 0).as_bytes (memOfList [] 1) = []) :=
  c4_as_bytes_null_safety (memOfList [] 1) (CxxStringView.mk 0 0) (fun _ => rfl)

/-- C5, counterexample: the view over the 17-byte test string
"A string from C++" does not report length 18. -/
theorem c5_len_counterexample :
    ¬ CxxStringView.len (CxxStringView.new ⟨1, aStringFromCpp.length⟩) = 18 := by
  decide

/-- C5, amended: the view over "A string from C++" compares equal to the
plain text literal in both directions and reports length 17 (the string
has 17 bytes, not 18). -/
theorem c5_view_eq_literal_len17 :
    CxxStringView.eq_str (memOfList aStringFromCpp 1)
        (CxxStringView.new ⟨1, aStringFromCpp.length⟩) aStringFromCpp = true ∧
      str_eq_view (memOfList aStringFromCpp 1) aStringFromCpp
        (CxxStringView.new ⟨1, aStringFromCpp.length⟩) = true ∧
      CxxStringView.len (CxxStringView.new ⟨1, aStringFromCpp.length⟩) = 17 := by
  decide

/-- C6: view equality is byte-content equality, hence an equivalence
relation, and equal views hash identically under every hasher and every
initial state. -/
theorem c6_eq_equivalence_hash (mem : Mem) (u v w : CxxStringView) :
    CxxStringView.eq mem u u = true ∧
    (CxxStringView.eq mem u v = true ↔ CxxStringView.eq mem v u = true) ∧
    (CxxStringView.eq mem u v = true → CxxStringView.eq mem v w = true →
      CxxStringView.eq mem u w = true) ∧
    (CxxStringView.eq mem u v = true ↔ u.as_bytes mem = v.as_bytes mem) ∧
    (∀ (α : Type) (hasher : List Nat → α → α) (st : α),
      CxxStringView.eq mem u v = true →
      CxxStringView.hash mem hasher st u = CxxStringView.hash mem hasher st v) := by
  refine ⟨?_, ?_, ?_, ?_, ?_⟩
  · simp [CxxStringView.eq]
  · simp only [CxxStringView.eq, beq_iff_eq]
    exact eq_comm
  · simp only [CxxStringView.eq, beq_iff_eq]
    exact fun h1 h2 => h1.trans h2
  · simp [CxxStringView.eq]
  · intro α hasher st h
    simp only [CxxStringView.eq, beq_iff_eq] at h
    unfold CxxStringView.hash
    rw [h]

/-- C7: `cmp` is the byte-lexicographic comparison of `as_bytes` (against
Mathlib's independent `List.Lex` order), `partial_cmp` is always `some` of
it, and concretely a view over "a" precedes a view over "b". -/
theorem c7_ord_lexicographic (mem : Mem) (u v : CxxStringView) :
    CxxStringView.cmp mem u v = sliceCmp (u.as_bytes mem) (v.as_bytes mem) ∧
    (CxxStringView.cmp mem u v = Ordering.lt ↔
      List.Lex (· < ·) (u.as_bytes mem) (v.as_bytes mem)) ∧
    (CxxStringView.cmp mem u v = Ordering.eq ↔ u.as_bytes mem = v.as_bytes mem) ∧
    (CxxStringView.cmp mem u v = Ordering.gt ↔
      List.Lex (· < ·) (v.as_bytes mem) (u.as_bytes mem)) ∧
    CxxStringView.partial_cmp mem u v = some (CxxStringView.cmp mem u v) ∧
    CxxStringView.cmp (memOfList [97, 98] 1) (CxxStringView.new ⟨1, 1⟩)
      (CxxStringView.new ⟨2, 1⟩) = Ordering.lt :=
  ⟨rfl, sliceCmp_lt_iff _ _, sliceCmp_eq_iff _ _, sliceCmp_gt_iff _ _,
    slicePartialCmp_eq_some_cmp _ _, by decide⟩

/-- C8: cross-type equality with `str` and with `CxxString` holds in both
directions exactly when the byte contents match. -/
theorem c8_cross_type_eq_symmetric (mem : Mem) (v : CxxStringView) (s : List Nat)
    (c : CxxString) :
    (CxxStringView.eq_str mem v s = true ↔ v.as_bytes mem = s) ∧
    (str_eq_view mem s v = true ↔ v.as_bytes mem = s) ∧
    (CxxStringView.eq_cxx_string mem v c = true ↔ v.as_bytes mem = c.as_bytes) ∧
    (cxx_string_eq_view mem c v = true ↔ v.as_bytes mem = c.as_bytes) := by
  refine ⟨?_, ?_, ?_, ?_⟩
  · simp [CxxStringView.eq_str]
  · simp only [str_eq_view, beq_iff_eq]
    exact eq_comm
  · simp [CxxStringView.eq_cxx_string]
  · simp only [cxx_string_eq_view, beq_iff_eq]
    exact eq_comm

/-- C9: `Display` renders exactly the lossy text of the view and `Debug`
renders the `str` debug form of that same lossy text; both are total
functions of the view, the rendered text equals the bytes themselves
whenever they are valid UTF-8, and is valid UTF-8 for every byte
content. -/
theorem c9_display_debug_lossy (mem : Mem) (v : CxxStringView)
    (strDebug : List Nat → List Nat) :
    CxxStringView.display_fmt mem v = lossyBytes (v.as_bytes mem) ∧
    CxxStringView.debug_fmt mem strDebug v = strDebug (lossyBytes (v.as_bytes mem)) ∧
    (ValidUtf8 (v.as_bytes mem) → CxxStringView.display_fmt mem v = v.as_bytes mem) ∧
    ValidUtf8 (CxxStringView.display_fmt mem v) := by
  have hb : CxxStringView.display_fmt mem v = lossyBytes (v.as_bytes mem) :=
    from_utf8_lossy_bytes _
  refine ⟨hb, ?_, ?_, ?_⟩
  · unfold CxxStringView.debug_fmt
    rw [show (v.to_string_lossy mem).bytes = lossyBytes (v.as_bytes mem) from
      from_utf8_lossy_bytes _]
  · intro hv
    rw [hb, lossyBytes_of_valid hv]
  · rw [hb]
    exact lossyBytes_valid _

/-- C10: `Borrow` and `AsRef` both return `as_bytes`, and the view's
equality, ordering and hashing agree with those of the borrowed byte
slice, as the `Borrow` contract requires. -/
theorem c10_borrow_contract (mem : Mem) (u v : CxxStringView) :
    CxxStringView.borrow mem u = u.as_bytes mem ∧
    CxxStringView.as_ref mem u = u.as_bytes mem ∧
    (CxxStringView.eq mem u v = true ↔
      CxxStringView.borrow mem u = CxxStringView.borrow mem v) ∧
    CxxStringView.cmp mem u v =
      sliceCmp (CxxStringView.borrow mem u) (CxxStringView.borrow mem v) ∧
    (∀ (α : Type) (hasher : List Nat → α → α) (st : α),
      CxxStringView.hash mem hasher st u = sliceHash hasher st (CxxStringView.borrow mem u)) := by
  refine ⟨rfl, rfl, ?_, rfl, fun α hasher st => rfl⟩
  simp [CxxStringView.eq, CxxStringView.borrow]
